import Mathlib

/-!
# Capacity forecasting engine (`server/src/routes/capacity.ts`) — verification

Shallow embedding of the capacity-forecast subsystem of the `lms` repository
(the `GET /api/capacity/forecast` handler and its helpers in
`server/src/routes/capacity.ts`), together with proofs and refutations of the
frozen claims about it.

Modelling conventions:
* ISO date strings `"YYYY-MM-DD"` are modelled by `YMD` triples.  The source
  compares date strings lexicographically (`a.start <= d`, `from > to`,
  `localeCompare`); for zero-padded dates this is exactly the lexicographic
  order on `(y, m, d)`, embedded here as `dle` / `dlt`.
* JavaScript `Date` arithmetic (`setDate`, `getDay`) is day-level proleptic
  Gregorian; it is modelled by `nextDay` / `prevDay` on triples and a
  rata-die day count `rataDie` that drives the weekday computation.
* JavaScript numbers (zod `z.number()`) are modelled by `ℚ` (exact
  arithmetic; the claims are about the algebraic structure of the
  computation, not float rounding).
* JavaScript `Map` objects are modelled by association lists with
  first-occurrence lookup (`mapGet?`) and replace-or-append update
  (`mapSet`); this reproduces `Map.get` / `Map.set` semantics.
-/

/-- A calendar date, the model of a `"YYYY-MM-DD"` string. -/
structure YMD where
  y : Nat
  m : Nat
  d : Nat
deriving DecidableEq, Repr

/-- Gregorian leap-year test (as used by JavaScript `Date`). -/
def isLeap (y : Nat) : Bool :=
  (y % 4 == 0 && y % 100 != 0) || y % 400 == 0

theorem isLeap_iff (y : Nat) :
    isLeap y = true ↔ (y % 4 = 0 ∧ ¬ y % 100 = 0) ∨ y % 400 = 0 := by
  simp [isLeap]

/-- Number of days in a month of a given year. -/
def daysInMonth (y m : Nat) : Nat :=
  if m = 2 then (if isLeap y then 29 else 28)
  else if m = 4 ∨ m = 6 ∨ m = 9 ∨ m = 11 then 30 else 31

/-- Month/day bounds of a real calendar date (year unconstrained). -/
def ValidMD (x : YMD) : Prop :=
  1 ≤ x.m ∧ x.m ≤ 12 ∧ 1 ≤ x.d ∧ x.d ≤ daysInMonth x.y x.m

instance (x : YMD) : Decidable (ValidMD x) := by unfold ValidMD; infer_instance

/-- A real calendar date with positive year (every `YYYY-MM-DD` date of the
    application data lies in years 1–9999). -/
def ValidDate (x : YMD) : Prop := ValidMD x ∧ 1 ≤ x.y

instance (x : YMD) : Decidable (ValidDate x) := by unfold ValidDate; infer_instance

/-- Strict lexicographic order on dates: the model of `<` on zero-padded ISO
    date strings. -/
def dlt (a b : YMD) : Prop :=
  a.y < b.y ∨ (a.y = b.y ∧ (a.m < b.m ∨ (a.m = b.m ∧ a.d < b.d)))

/-- Lexicographic order on dates: the model of `<=` on zero-padded ISO date
    strings. -/
def dle (a b : YMD) : Prop :=
  a.y < b.y ∨ (a.y = b.y ∧ (a.m < b.m ∨ (a.m = b.m ∧ a.d ≤ b.d)))

instance (a b : YMD) : Decidable (dlt a b) := by unfold dlt; infer_instance
instance (a b : YMD) : Decidable (dle a b) := by unfold dle; infer_instance

theorem dle_refl (a : YMD) : dle a a := by unfold dle; omega

theorem dle_total (a b : YMD) : dle a b ∨ dle b a := by
  unfold dle; omega

theorem dle_trans {a b c : YMD} (h₁ : dle a b) (h₂ : dle b c) : dle a c := by
  unfold dle at *; omega

theorem dlt_of_dle_of_ne {a b : YMD} (h : dle a b) (hne : a ≠ b) : dlt a b := by
  obtain ⟨ay, am, ad⟩ := a
  obtain ⟨by', bm, bd⟩ := b
  simp only [dle, dlt, ne_eq, YMD.mk.injEq] at *
  omega

theorem not_dle_of_dlt {a b : YMD} (h : dlt a b) : ¬ dle b a := by
  unfold dlt dle at *; omega

/-- Day count of a date (a rata-die style day number, shifted by 400 years so
    that all arithmetic stays in `Nat`).  Models the day-level timeline of
    JavaScript `Date`. -/
def rataDie (x : YMD) : Nat :=
  (if x.m ≤ 2 then
    365 * (x.y + 399) + (x.y + 399) / 4 - (x.y + 399) / 100 + (x.y + 399) / 400
      + 153 * (x.m + 13) / 5
   else
    365 * (x.y + 400) + (x.y + 400) / 4 - (x.y + 400) / 100 + (x.y + 400) / 400
      + 153 * (x.m + 1) / 5) + x.d

/-- Successor date: the model of JavaScript `d.setDate(d.getDate() + 1)` on a
    valid date (the normalisation JS applies is exactly this month/year
    rollover). -/
def nextDay (x : YMD) : YMD :=
  if x.d < daysInMonth x.y x.m then ⟨x.y, x.m, x.d + 1⟩
  else if x.m < 12 then ⟨x.y, x.m + 1, 1⟩
  else ⟨x.y + 1, 1, 1⟩

/-- Predecessor date: the model of `d.setDate(d.getDate() - 1)`. -/
def prevDay (x : YMD) : YMD :=
  if 1 < x.d then ⟨x.y, x.m, x.d - 1⟩
  else if 1 < x.m then ⟨x.y, x.m - 1, daysInMonth x.y (x.m - 1)⟩
  else ⟨x.y - 1, 12, 31⟩

/-- `weekdayFromISO` of the source: ISO weekday, Monday = 1 … Sunday = 7
    (the source maps JavaScript `getDay()` 0=Sun to this coding).  The
    constant 5 calibrates the day count to the real-world week:
    2024-01-01 was a Monday. -/
def weekdayFromISO (x : YMD) : Nat := (rataDie x + 5) % 7 + 1

/-- `startOfISOWeek` of the source: step back to the most recent Monday
    (`day = (getDay()+6)%7; d.setDate(d.getDate()-day)`). -/
def startOfISOWeek (x : YMD) : YMD := prevDay^[weekdayFromISO x - 1] x

/-- `startOfMonthISO` of the source: `d.setDate(1)`. -/
def startOfMonthISO (x : YMD) : YMD := ⟨x.y, x.m, 1⟩

set_option maxHeartbeats 2000000 in
theorem rataDie_nextDay (x : YMD) (hx : ValidMD x) :
    rataDie (nextDay x) = rataDie x + 1 := by
  obtain ⟨y, m, d⟩ := x
  obtain ⟨hm1, hm2, hd1, hd2⟩ := hx
  have hleapT : isLeap y = true → (y % 4 = 0 ∧ ¬ y % 100 = 0) ∨ y % 400 = 0 :=
    (isLeap_iff y).mp
  have hleapF : isLeap y = false → ¬ ((y % 4 = 0 ∧ ¬ y % 100 = 0) ∨ y % 400 = 0) := by
    intro h; rw [← isLeap_iff, h]; simp
  try dsimp only at hm1 hm2 hd1 hd2
  unfold nextDay
  dsimp only
  split_ifs with h1 h2
  · -- same month, day + 1
    unfold rataDie
    try dsimp only
    split_ifs <;> omega
  · -- month rollover (m < 12)
    unfold rataDie
    try dsimp only
    try dsimp only at h1 h2
    rcases hiL : isLeap y with _ | _ <;>
      [replace hleapT := hleapF hiL; replace hleapT := hleapT hiL] <;>
      simp only [daysInMonth, hiL] at h1 hd2 <;>
      interval_cases m <;>
      simp at h1 hd2 ⊢ <;>
      omega
  · -- year rollover: December 31st
    unfold rataDie
    try dsimp only
    try dsimp only at h1 h2
    have hm : m = 12 := by omega
    subst hm
    simp only [daysInMonth] at h1 hd2
    simp at h1 hd2 ⊢
    omega

theorem validMD_nextDay (x : YMD) (hx : ValidMD x) : ValidMD (nextDay x) := by
  obtain ⟨y, m, d⟩ := x
  obtain ⟨hm1, hm2, hd1, hd2⟩ := hx
  try dsimp only at hm1 hm2 hd1 hd2
  unfold nextDay
  dsimp only
  split_ifs with h1 h2 <;>
    unfold ValidMD <;> try dsimp only <;>
    simp only [daysInMonth] at * <;>
    split_ifs at * <;> omega

theorem validDate_nextDay (x : YMD) (hx : ValidDate x) : ValidDate (nextDay x) := by
  refine ⟨validMD_nextDay x hx.1, ?_⟩
  have hy := hx.2
  unfold nextDay
  split_ifs <;> dsimp only <;> omega

theorem dlt_nextDay (x : YMD) : dlt x (nextDay x) := by
  obtain ⟨y, m, d⟩ := x
  unfold nextDay
  split_ifs <;> unfold dlt <;> dsimp only <;> omega

theorem validMD_prevDay (x : YMD) (hx : ValidMD x) : ValidMD (prevDay x) := by
  obtain ⟨y, m, d⟩ := x
  obtain ⟨hm1, hm2, hd1, hd2⟩ := hx
  try dsimp only at hm1 hm2 hd1 hd2
  unfold prevDay
  split_ifs with h1 h2 <;>
    unfold ValidMD <;> try dsimp only <;>
    simp only [daysInMonth] at * <;>
    split_ifs at * <;> omega

theorem nextDay_prevDay (x : YMD) (hx : ValidMD x)
    (h0 : 1 ≤ x.y ∨ 2 ≤ x.m ∨ 2 ≤ x.d) : nextDay (prevDay x) = x := by
  obtain ⟨y, m, d⟩ := x
  obtain ⟨hm1, hm2, hd1, hd2⟩ := hx
  dsimp only at hm1 hm2 hd1 hd2 h0
  have hdim12 : daysInMonth (y - 1) 12 = 31 := by simp [daysInMonth]
  unfold prevDay
  dsimp only
  split_ifs with h1 h2
  · unfold nextDay
    dsimp only
    split_ifs <;> simp only [YMD.mk.injEq, true_and, and_true] <;> omega
  · unfold nextDay
    dsimp only
    split_ifs <;> simp only [YMD.mk.injEq, true_and, and_true] <;> omega
  · unfold nextDay
    dsimp only
    rw [hdim12]
    split_ifs <;> simp only [YMD.mk.injEq, true_and, and_true] <;> omega

theorem rataDie_prevDay (x : YMD) (hx : ValidMD x)
    (h0 : 1 ≤ x.y ∨ 2 ≤ x.m ∨ 2 ≤ x.d) :
    rataDie (prevDay x) + 1 = rataDie x := by
  conv_rhs => rw [← nextDay_prevDay x hx h0]
  rw [rataDie_nextDay _ (validMD_prevDay x hx)]

theorem dle_of_dlt {a b : YMD} (h : dlt a b) : dle a b := by
  unfold dlt dle at *; omega

theorem dlt_prevDay (x : YMD) (h0 : 1 ≤ x.y ∨ 2 ≤ x.m ∨ 2 ≤ x.d) :
    dlt (prevDay x) x := by
  obtain ⟨y, m, d⟩ := x
  dsimp only at h0
  unfold prevDay
  dsimp only
  split_ifs <;> unfold dlt <;> dsimp only <;> omega

/-- Invariant carried along the `prevDay` chain that computes
    `startOfISOWeek`: the chain stays on real dates, each step moves the day
    count down by one, stays (lexicographically) at or before the start, and
    never reaches the problematic corner `0000-01-01` (at most 6 steps from a
    positive-year date can only enter year 0 through December 31). -/
theorem prevDay_chain (x : YMD) (hx : ValidDate x) :
    ∀ i, i ≤ 6 →
      ValidMD (prevDay^[i] x) ∧
      rataDie (prevDay^[i] x) + i = rataDie x ∧
      (1 ≤ (prevDay^[i] x).y ∨
        ((prevDay^[i] x).m = 12 ∧ 31 - i ≤ (prevDay^[i] x).d)) ∧
      dle (prevDay^[i] x) x := by
  intro i
  induction i with
  | zero =>
    intro _
    simp only [Function.iterate_zero_apply]
    exact ⟨hx.1, by omega, Or.inl hx.2, dle_refl x⟩
  | succ i ih =>
    intro hi6
    obtain ⟨hMD, hrd, hinv, hdle⟩ := ih (by omega)
    rw [Function.iterate_succ_apply']
    have h0 : 1 ≤ (prevDay^[i] x).y ∨ 2 ≤ (prevDay^[i] x).m ∨ 2 ≤ (prevDay^[i] x).d := by
      rcases hinv with h | ⟨hm, _⟩
      · exact Or.inl h
      · exact Or.inr (Or.inl (by omega))
    refine ⟨validMD_prevDay _ hMD, ?_, ?_, ?_⟩
    · have := rataDie_prevDay _ hMD h0
      omega
    · -- the year-or-December invariant survives one more backward step
      clear hrd hdle h0
      generalize hgen : prevDay^[i] x = c at hMD hinv
      obtain ⟨cy, cm, cd⟩ := c
      obtain ⟨hm1, hm2, hd1, hd2⟩ := hMD
      dsimp only at hm1 hm2 hd1 hd2 hinv ⊢
      unfold prevDay
      dsimp only
      split_ifs with h1 h2 <;> dsimp only <;> omega
    · exact dle_trans (dle_of_dlt (dlt_prevDay _ h0)) hdle

/-- `startOfISOWeek` really is the most recent Monday on or before its
    argument: it is a Monday, lexicographically at or before the date, and
    less than 7 days away. -/
theorem startOfISOWeek_spec (x : YMD) (hx : ValidDate x) :
    weekdayFromISO (startOfISOWeek x) = 1 ∧
    dle (startOfISOWeek x) x ∧
    rataDie x < rataDie (startOfISOWeek x) + 7 := by
  have hk : weekdayFromISO x - 1 ≤ 6 := by unfold weekdayFromISO; omega
  obtain ⟨hMD, hrd, hinv, hdle⟩ := prevDay_chain x hx (weekdayFromISO x - 1) hk
  unfold startOfISOWeek
  refine ⟨?_, hdle, by omega⟩
  unfold weekdayFromISO at hrd ⊢
  omega

theorem validMD_startOfISOWeek (x : YMD) (hx : ValidDate x) :
    ValidMD (startOfISOWeek x) := by
  have hk : weekdayFromISO x - 1 ≤ 6 := by unfold weekdayFromISO; omega
  exact (prevDay_chain x hx (weekdayFromISO x - 1) hk).1

/-! ## Association-list model of JavaScript `Map` -/

def mapGet? {κ β : Type} [DecidableEq κ] : List (κ × β) → κ → Option β
  | [], _ => none
  | (k', v') :: rest, k => if k' = k then some v' else mapGet? rest k

def mapSet {κ β : Type} [DecidableEq κ] : List (κ × β) → κ → β → List (κ × β)
  | [], k, v => [(k, v)]
  | (k', v') :: rest, k, v =>
    if k' = k then (k, v) :: rest else (k', v') :: mapSet rest k v

theorem mapGet?_mapSet_self {κ β : Type} [DecidableEq κ]
    (m : List (κ × β)) (k : κ) (v : β) :
    mapGet? (mapSet m k v) k = some v := by
  induction m with
  | nil => simp [mapSet, mapGet?]
  | cons kv rest ih =>
    obtain ⟨k', v'⟩ := kv
    by_cases h : k' = k <;> simp [mapSet, mapGet?, h, ih]

theorem mapGet?_mapSet_ne {κ β : Type} [DecidableEq κ]
    (m : List (κ × β)) (k k' : κ) (v : β) (h : k ≠ k') :
    mapGet? (mapSet m k v) k' = mapGet? m k' := by
  induction m with
  | nil => simp [mapSet, mapGet?, h]
  | cons kv rest ih =>
    obtain ⟨k'', v''⟩ := kv
    by_cases h2 : k'' = k <;> by_cases h3 : k'' = k' <;>
      simp_all [mapSet, mapGet?]

/-! ## Data model (`server/src/routes/capacity.ts`) -/

/-- A `Staff` row: `{ id: number; name: string }`. -/
structure Staff where
  id : Nat
  name : String
deriving DecidableEq, Repr

/-- An `Assignment` row.  `start`/`end` are `YMD` models of the ISO date
    strings; `end` is a Lean keyword, hence the field names `startD`/`endD`. -/
structure Assignment where
  id : Nat
  staffId : Nat
  projectId : Nat
  startD : YMD
  endD : YMD
  notes : Option String := none
deriving DecidableEq, Repr

/-- A `staffOverrides` entry of `capacityRulesSchema`. -/
structure StaffOverride where
  staffId : Nat
  hoursPerDay : ℚ
  workdays : Option (List Nat) := none
deriving DecidableEq, Repr

/-- An `exceptions` entry of `capacityRulesSchema`. -/
structure CapacityException where
  date : YMD
  hours : Option ℚ := none
  staffId : Option Nat := none
  reason : Option String := none
deriving DecidableEq, Repr

/-- A validated `CapacityRules` document. -/
structure CapacityRules where
  defaultHoursPerDay : ℚ
  workdays : List Nat
  staffOverrides : List StaffOverride
  exceptions : List CapacityException
deriving DecidableEq, Repr

/-- `defaultRules` of the source. -/
def defaultRules : CapacityRules := ⟨8, [1, 2, 3, 4, 5], [], []⟩

/-- The raw (pre-validation) shape of a stored rules document: each
    top-level field may be absent, and the zod `.default(...)` value then fills it. -/
structure RawRules where
  defaultHoursPerDay : Option ℚ := none
  workdays : Option (List Nat) := none
  staffOverrides : Option (List StaffOverride) := none
  exceptions : Option (List CapacityException) := none
deriving DecidableEq, Repr

/-- The field checks of `capacityRulesSchema`: nonnegative hours
    (`z.number().min(0)`), weekday codes in 1..7, positive staff ids
    (`posInt`). -/
def okRules (r : CapacityRules) : Bool :=
  decide (0 ≤ r.defaultHoursPerDay) &&
  r.workdays.all (fun w => decide (1 ≤ w) && decide (w ≤ 7)) &&
  r.staffOverrides.all (fun o =>
    decide (0 < o.staffId) && decide (0 ≤ o.hoursPerDay) &&
    (match o.workdays with
     | some ws => ws.all (fun w => decide (1 ≤ w) && decide (w ≤ 7))
     | none => true)) &&
  r.exceptions.all (fun e =>
    (match e.hours with
     | some h => decide (0 ≤ h)
     | none => true) &&
    (match e.staffId with
     | some s => decide (0 < s)
     | none => true))

/-- `capacityRulesSchema` parsing: fill the `.default(...)` values for
    absent fields, then check the constraints; `none` models a failed parse. -/
def validateRules (raw : RawRules) : Option CapacityRules :=
  let r : CapacityRules :=
    ⟨raw.defaultHoursPerDay.getD 8, raw.workdays.getD [1, 2, 3, 4, 5],
     raw.staffOverrides.getD [], raw.exceptions.getD []⟩
  if okRules r then some r else none

/-! ## The forecast computation -/

/-- `staffHours`: map from staff id to daily hours — initialised to
    `rules.defaultHoursPerDay` for every staff row, then overwritten by each
    `staffOverrides` entry (the source guard `o.hoursPerDay !== undefined`
    always holds under the schema). -/
def buildStaffHours (staff : List Staff) (rules : CapacityRules) : List (Nat × ℚ) :=
  let init := staff.foldl (fun m s => mapSet m s.id rules.defaultHoursPerDay) []
  rules.staffOverrides.foldl (fun m o => mapSet m o.staffId o.hoursPerDay) init

/-- `staffWorkdays`: map from staff id to workday set (modelled as the
    list): initialised to `rules.workdays`, then replaced by an override
    only when its `workdays` field is present (`if (o.workdays)` — in JS any
    array, even an empty one, is truthy). -/
def buildStaffWorkdays (staff : List Staff) (rules : CapacityRules) :
    List (Nat × List Nat) :=
  let init := staff.foldl (fun m s => mapSet m s.id rules.workdays) []
  rules.staffOverrides.foldl
    (fun m o =>
      match o.workdays with
      | some w => mapSet m o.staffId w
      | none => m) init

/-- `globalExc`: date ↦ hours for exceptions without a `staffId`
    (`e.hours ?? 0`).  The source fills `globalExc` and `perStaffExc` in a
    single loop over `rules.exceptions`; each entry updates exactly one of
    the two maps, so the loop is split into two folds here. -/
def buildGlobalExc (rules : CapacityRules) : List (YMD × ℚ) :=
  rules.exceptions.foldl
    (fun m e =>
      match e.staffId with
      | some _ => m
      | none => mapSet m e.date (e.hours.getD 0)) []

/-- `perStaffExc`: date ↦ (staffId ↦ hours) for staff-scoped exceptions
    (`if (e.staffId)` — `posInt` staff ids are always truthy). -/
def buildPerStaffExc (rules : CapacityRules) : List (YMD × List (Nat × ℚ)) :=
  rules.exceptions.foldl
    (fun m e =>
      match e.staffId with
      | some sid =>
          mapSet m e.date (mapSet ((mapGet? m e.date).getD []) sid (e.hours.getD 0))
      | none => m) []

/-- The hours value computed for one staff member inside the availability
    loop: `staffHours.get(s.id) ?? rules.defaultHoursPerDay`, replaced by a
    global exception for the date if present, replaced by a per-staff
    exception if present. -/
def effectiveHours (staff : List Staff) (rules : CapacityRules) (sid : Nat) (d : YMD) : ℚ :=
  let h0 := (mapGet? (buildStaffHours staff rules) sid).getD rules.defaultHoursPerDay
  let h1 :=
    match mapGet? (buildGlobalExc rules) d with
    | some g => g
    | none => h0
  match (mapGet? (buildPerStaffExc rules) d).bind (fun inner => mapGet? inner sid) with
  | some ps => ps
  | none => h1

/-- `const canWork = staffWorkdays.get(s.id)?.has(wd) ?? false`. -/
def worksOn (staff : List Staff) (rules : CapacityRules) (sid : Nat) (d : YMD) : Bool :=
  match mapGet? (buildStaffWorkdays staff rules) sid with
  | some ws => decide (weekdayFromISO d ∈ ws)
  | none => false

/-- The `available` accumulation of the daily loop (`if (!canWork) continue`
    then `avail += h`); the loop body is exactly `worksOn` gating
    `effectiveHours`. -/
def availableOn (staff : List Staff) (rules : CapacityRules) (d : YMD) : ℚ :=
  staff.foldl
    (fun acc s =>
      if worksOn staff rules s.id d then acc + effectiveHours staff rules s.id d else acc)
    0

/-- The `needed` accumulation: for every assignment whose inclusive span
    contains the date, add `staffHours.get(a.staffId) ?? rules.defaultHoursPerDay`.
    No exception is applied here — the source comments that with a per-staff
    0h exception "the *available* will drop but the *needed* stays". -/
def neededHoursOn (staff : List Staff) (rules : CapacityRules)
    (assignments : List Assignment) (d : YMD) : ℚ :=
  assignments.foldl
    (fun acc a =>
      if dle a.startD d ∧ dle d a.endD then
        acc + (mapGet? (buildStaffHours staff rules) a.staffId).getD rules.defaultHoursPerDay
      else acc)
    0

/-- One row of the per-day series. -/
structure DayRow where
  date : YMD
  available : ℚ
  needed : ℚ
deriving DecidableEq, Repr

/-- Body of the daily loop
    `for (let d = from; d <= to; d = addDaysISO(d, 1))`, with an explicit
    fuel for termination. -/
def buildDailySeriesAux (staff : List Staff) (assignments : List Assignment)
    (rules : CapacityRules) (dto : YMD) : Nat → YMD → List DayRow
  | 0, _ => []
  | fuel + 1, d =>
    if dle d dto then
      ⟨d, availableOn staff rules d, neededHoursOn staff rules assignments d⟩ ::
        buildDailySeriesAux staff assignments rules dto fuel (nextDay d)
    else []

/-- The per-day series of the forecast handler.  The fuel
    `rataDie dto + 1 - rataDie dfrom` is exactly the iteration count of the
    source loop on real dates: `rataDie` advances by 1 per `nextDay`
    (`rataDie_nextDay`), and for real dates the lexicographic string
    comparison `d <= to` agrees with `rataDie` order. -/
def buildDailySeries (staff : List Staff) (assignments : List Assignment)
    (rules : CapacityRules) (dfrom dto : YMD) : List DayRow :=
  buildDailySeriesAux staff assignments rules dto (rataDie dto + 1 - rataDie dfrom) dfrom

/-- The bucket granularity (`z.enum(["day","week","month"])`). -/
inductive Bucket
  | day
  | week
  | month
deriving DecidableEq, Repr

/-- One element of the returned `points` array. -/
structure BucketPoint where
  bucketStart : YMD
  available : ℚ
  needed : ℚ
deriving DecidableEq, Repr

/-- The bucket key chosen by `push`. -/
def bucketKey (b : Bucket) (date : YMD) : YMD :=
  match b with
  | Bucket.day => date
  | Bucket.week => startOfISOWeek date
  | Bucket.month => startOfMonthISO date

/-- One `push(date, available, needed)` call: fetch-or-create the bucket
    point (`points.get(key) ?? { bucketStart: key, available: 0, needed: 0 }`),
    add the numbers of the day, store it back. -/
def pushPoint (b : Bucket) (pts : List (YMD × BucketPoint)) (r : DayRow) :
    List (YMD × BucketPoint) :=
  let key := bucketKey b r.date
  let p := (mapGet? pts key).getD ⟨key, 0, 0⟩
  mapSet pts key ⟨p.bucketStart, p.available + r.available, p.needed + r.needed⟩

/-- Comparator of the final `.sort((a,b) => a.bucketStart.localeCompare(b.bucketStart))`. -/
def bucketLE (p q : BucketPoint) : Bool := decide (dle p.bucketStart q.bucketStart)

def insertSorted {α : Type} (le : α → α → Bool) (x : α) : List α → List α
  | [] => [x]
  | y :: ys => if le x y then x :: y :: ys else y :: insertSorted le x ys

/-- Insertion sort; models the `Array.prototype.sort` call (the bucket keys
    are distinct, so any comparison sort produces this unique ordering). -/
def sortByLE {α : Type} (le : α → α → Bool) : List α → List α
  | [] => []
  | x :: xs => insertSorted le x (sortByLE le xs)

/-- The bucketising tail of the handler: fold every day row into the
    `points` map, take the values, sort ascending by `bucketStart`. -/
def bucketize (b : Bucket) (days : List DayRow) : List BucketPoint :=
  sortByLE bucketLE ((days.foldl (pushPoint b) []).map Prod.snd)

/-- The failure modes of the forecast handler. -/
inductive ForecastError
  | invalidBucket
  | invalidRange
  | rulesParseFailed
deriving DecidableEq, Repr

/-- Which failures produce an HTTP 400 response: the query `safeParse`
    failure and the `from > to` check do (`res.status(400).json(...)`); the
    `capacityRulesSchema.parse` call throws instead, and the exception
    escapes the async Express 4 handler — no 400 response is produced. -/
def respondsWith400 : ForecastError → Bool
  | ForecastError.invalidBucket => true
  | ForecastError.invalidRange => true
  | ForecastError.rulesParseFailed => false

/-- The successful response body `{ bucket, points }`. -/
structure ForecastOk where
  bucket : Bucket
  points : List BucketPoint
deriving DecidableEq, Repr

/-- `req.query.bucket ?? "week"` fed through
    `z.enum(["day","week","month"]).default("week")`. -/
def parseBucket : Option String → Option Bucket
  | none => some Bucket.week
  | some s =>
    if s = "day" then some Bucket.day
    else if s = "week" then some Bucket.week
    else if s = "month" then some Bucket.month
    else none

/-- The `GET /api/capacity/forecast` handler, for well-formed `from`/`to`
    date strings (the `isoDate` regex describes exactly the shapes modelled by
    `YMD`): parse the query (invalid bucket → 400), check the range
    (`from > to` → 400), parse the stored rules document
    (`capacityRulesSchema.parse` — throws on a bad document), then build and
    bucketise the daily series. -/
def forecastHandler (staff : List Staff) (assignments : List Assignment)
    (raw : RawRules) (dfrom dto : YMD) (bucketQ : Option String) :
    Except ForecastError ForecastOk :=
  match parseBucket bucketQ with
  | none => Except.error ForecastError.invalidBucket
  | some bucket =>
    if dlt dto dfrom then Except.error ForecastError.invalidRange
    else
      match validateRules raw with
      | none => Except.error ForecastError.rulesParseFailed
      | some rules =>
        Except.ok ⟨bucket, bucketize bucket (buildDailySeries staff assignments rules dfrom dto)⟩

/-! ## Spec-side definitions (for refinement comparison)

The rule-resolution operations of the spec, written from the wording of section 4.2 of
the spec.  Within one precedence category the LAST matching list entry wins,
matching the map-overwrite semantics of the source (the spec does not
address duplicate entries). -/

/-- The staff-scoped exception matching `(sid, d)`, if any (last one wins). -/
def lastStaffExc (rules : CapacityRules) (sid : Nat) (d : YMD) : Option ℚ :=
  rules.exceptions.reverse.findSome?
    (fun e =>
      match e.staffId with
      | some s => if s = sid ∧ e.date = d then some (e.hours.getD 0) else none
      | none => none)

/-- The global exception matching `d`, if any (last one wins). -/
def lastGlobalExc (rules : CapacityRules) (d : YMD) : Option ℚ :=
  rules.exceptions.reverse.findSome?
    (fun e =>
      match e.staffId with
      | some _ => none
      | none => if e.date = d then some (e.hours.getD 0) else none)

/-- The staff override for `sid`, if any (last one wins). -/
def lastOverride (rules : CapacityRules) (sid : Nat) : Option StaffOverride :=
  rules.staffOverrides.reverse.find? (fun o => o.staffId == sid)

/-- The override workday set for `sid`, if any override provides one
    (last provider wins). -/
def lastOverrideWorkdays (rules : CapacityRules) (sid : Nat) : Option (List Nat) :=
  rules.staffOverrides.reverse.findSome?
    (fun o => if o.staffId = sid then o.workdays else none)

/-- Section 4.2 `effectiveHours`, literally as the spec words the precedence:
    staff-scoped exception (hours, 0 if omitted), else global exception
    (hours, 0 if omitted), else the override value `hoursPerDay`, else
    `rules.defaultHoursPerDay`. -/
def effectiveHoursSpec (rules : CapacityRules) (sid : Nat) (d : YMD) : ℚ :=
  match lastStaffExc rules sid d with
  | some h => h
  | none =>
    match lastGlobalExc rules d with
    | some h => h
    | none =>
      match lastOverride rules sid with
      | some o => o.hoursPerDay
      | none => rules.defaultHoursPerDay

/-- Section 4.2 `worksOn` effective workday set: the override `workdays` if
    provided, else `rules.workdays`. -/
def effectiveWorkdays (rules : CapacityRules) (sid : Nat) : List Nat :=
  match lastOverrideWorkdays rules sid with
  | some ws => ws
  | none => rules.workdays

/-- Override-or-default base daily hours, with no exception applied: the
    value the `needed` loop uses for the staff member of an assignment. -/
def overrideHoursOrDefault (rules : CapacityRules) (sid : Nat) : ℚ :=
  match lastOverride rules sid with
  | some o => o.hoursPerDay
  | none => rules.defaultHoursPerDay

/-- The formula claim C1 gives for `needed`: the sum of `effectiveHours` (with full
    exception precedence) over the assignments spanning the date.  Stated
    for comparison with `neededHoursOn`, which is what the code computes. -/
def neededHoursClaimC1 (staff : List Staff) (rules : CapacityRules)
    (assignments : List Assignment) (d : YMD) : ℚ :=
  ((assignments.filter (fun a => decide (dle a.startD d) && decide (dle d a.endD))).map
    (fun a => effectiveHours staff rules a.staffId d)).sum

/-! ## Lookup characterisations of the prebuilt maps -/

theorem lookup_constFold {β : Type} (staff : List Staff) (c : β)
    (m0 : List (Nat × β)) (sid : Nat) :
    mapGet? (staff.foldl (fun m s => mapSet m s.id c) m0) sid =
      if sid ∈ staff.map Staff.id then some c else mapGet? m0 sid := by
  induction staff generalizing m0 with
  | nil => simp
  | cons s rest ih =>
    simp only [List.foldl_cons, ih, List.map_cons, List.mem_cons]
    by_cases hmem : sid ∈ rest.map Staff.id
    · simp [hmem]
    · by_cases hid : s.id = sid
      · simp [hmem, hid, mapGet?_mapSet_self]
      · have hid' : ¬ sid = s.id := fun h => hid h.symm
        simp [hmem, hid', mapGet?_mapSet_ne _ _ _ _ hid]

theorem lookup_hoursFold (l : List StaffOverride) (m0 : List (Nat × ℚ)) (sid : Nat) :
    mapGet? (l.foldl (fun m o => mapSet m o.staffId o.hoursPerDay) m0) sid =
      match l.reverse.find? (fun o => o.staffId == sid) with
      | some o => some o.hoursPerDay
      | none => mapGet? m0 sid := by
  induction l generalizing m0 with
  | nil => simp
  | cons o rest ih =>
    simp only [List.foldl_cons, ih, List.reverse_cons, List.find?_append]
    rcases hfind : rest.reverse.find? (fun o => o.staffId == sid) with _ | o'
    · simp only [hfind, Option.none_or]
      by_cases hid : o.staffId = sid
      · simp [List.find?, hid, mapGet?_mapSet_self]
      · have hbeq : (o.staffId == sid) = false := by simp [hid]
        simp [List.find?, hbeq, mapGet?_mapSet_ne _ _ _ _ hid]
    · simp [hfind]

theorem lookup_workdaysFold (l : List StaffOverride) (m0 : List (Nat × List Nat)) (sid : Nat) :
    mapGet?
      (l.foldl
        (fun m o =>
          match o.workdays with
          | some w => mapSet m o.staffId w
          | none => m) m0) sid =
      match l.reverse.findSome? (fun o => if o.staffId = sid then o.workdays else none) with
      | some w => some w
      | none => mapGet? m0 sid := by
  induction l generalizing m0 with
  | nil => simp
  | cons o rest ih =>
    simp only [List.foldl_cons, ih, List.reverse_cons, List.findSome?_append]
    rcases hfind : rest.reverse.findSome?
        (fun o => if o.staffId = sid then o.workdays else none) with _ | w'
    · simp only [hfind, Option.none_or]
      by_cases hid : o.staffId = sid
      · rcases hw : o.workdays with _ | w <;>
          simp [List.findSome?, hid, hw, mapGet?_mapSet_self]
      · rcases hw : o.workdays with _ | w <;>
          simp [List.findSome?, hid, hw, mapGet?_mapSet_ne _ _ _ _ hid]
    · simp [hfind]

theorem lookup_globalExcFold (l : List CapacityException) (m0 : List (YMD × ℚ)) (d : YMD) :
    mapGet?
      (l.foldl
        (fun m e =>
          match e.staffId with
          | some _ => m
          | none => mapSet m e.date (e.hours.getD 0)) m0) d =
      match l.reverse.findSome?
          (fun e =>
            match e.staffId with
            | some _ => none
            | none => if e.date = d then some (e.hours.getD 0) else none) with
      | some h => some h
      | none => mapGet? m0 d := by
  induction l generalizing m0 with
  | nil => simp
  | cons e rest ih =>
    simp only [List.foldl_cons, ih, List.reverse_cons, List.findSome?_append]
    rcases hfind : rest.reverse.findSome?
        (fun e =>
          match e.staffId with
          | some _ => none
          | none => if e.date = d then some (e.hours.getD 0) else none) with _ | h'
    · simp only [hfind, Option.none_or]
      rcases hsid : e.staffId with _ | s
      · by_cases hd : e.date = d
        · simp [List.findSome?, hsid, hd, mapGet?_mapSet_self]
        · simp [List.findSome?, hsid, hd, mapGet?_mapSet_ne _ _ _ _ hd]
      · simp [List.findSome?, hsid]
    · simp [hfind]

/-- Chained lookup in the nested `perStaffExc` map:
    `perStaffExc.get(d)?.get(sid)`. -/
def lookup2 (m : List (YMD × List (Nat × ℚ))) (d : YMD) (sid : Nat) : Option ℚ :=
  (mapGet? m d).bind (fun inner => mapGet? inner sid)

theorem lookup2_perStaffFold (l : List CapacityException)
    (m0 : List (YMD × List (Nat × ℚ))) (d : YMD) (sid : Nat) :
    lookup2
      (l.foldl
        (fun m e =>
          match e.staffId with
          | some s =>
              mapSet m e.date (mapSet ((mapGet? m e.date).getD []) s (e.hours.getD 0))
          | none => m) m0) d sid =
      match l.reverse.findSome?
          (fun e =>
            match e.staffId with
            | some s => if s = sid ∧ e.date = d then some (e.hours.getD 0) else none
            | none => none) with
      | some h => some h
      | none => lookup2 m0 d sid := by
  induction l generalizing m0 with
  | nil => simp
  | cons e rest ih =>
    simp only [List.foldl_cons, ih, List.reverse_cons, List.findSome?_append]
    rcases hfind : rest.reverse.findSome?
        (fun e =>
          match e.staffId with
          | some s => if s = sid ∧ e.date = d then some (e.hours.getD 0) else none
          | none => none) with _ | h'
    · simp only [hfind, Option.none_or]
      rcases hsid : e.staffId with _ | s
      · simp [List.findSome?, hsid]
      · by_cases hd : e.date = d
        · subst hd
          by_cases hs : s = sid
          · subst hs
            simp [List.findSome?, hsid, lookup2, mapGet?_mapSet_self]
          · simp only [List.findSome?, hsid, hs, false_and, if_neg, lookup2,
              mapGet?_mapSet_self, Option.bind_some,
              mapGet?_mapSet_ne _ _ _ _ hs]
            rcases hm : mapGet? m0 e.date with _ | inner <;>
              simp [hm, mapSet, mapGet?, hs, mapGet?_mapSet_ne _ _ _ _ hs]
        · have : ¬ (s = sid ∧ e.date = d) := fun hc => hd hc.2
          simp [List.findSome?, hsid, this, lookup2, mapGet?_mapSet_ne _ _ _ _ hd]
    · simp [hfind]

/-! ## Assembled characterisations -/

theorem lookup_buildStaffHours (staff : List Staff) (rules : CapacityRules) (sid : Nat) :
    mapGet? (buildStaffHours staff rules) sid =
      match lastOverride rules sid with
      | some o => some o.hoursPerDay
      | none =>
          if sid ∈ staff.map Staff.id then some rules.defaultHoursPerDay else none := by
  unfold buildStaffHours lastOverride
  rw [lookup_hoursFold, lookup_constFold]
  rcases List.find? (fun o => o.staffId == sid) rules.staffOverrides.reverse with _ | o <;>
    simp [mapGet?]

/-- The base hours the loops read from `staffHours` (with the
    `?? rules.defaultHoursPerDay` fallback): override if present, else the
    default — independent of whether `sid` is in the staff collection. -/
theorem staffBaseHours_eq (staff : List Staff) (rules : CapacityRules) (sid : Nat) :
    (mapGet? (buildStaffHours staff rules) sid).getD rules.defaultHoursPerDay =
      overrideHoursOrDefault rules sid := by
  rw [lookup_buildStaffHours]
  unfold overrideHoursOrDefault
  rcases lastOverride rules sid with _ | o
  · by_cases hmem : sid ∈ staff.map Staff.id <;> simp [hmem]
  · simp

theorem lookup_buildStaffWorkdays (staff : List Staff) (rules : CapacityRules) (sid : Nat) :
    mapGet? (buildStaffWorkdays staff rules) sid =
      match lastOverrideWorkdays rules sid with
      | some ws => some ws
      | none => if sid ∈ staff.map Staff.id then some rules.workdays else none := by
  unfold buildStaffWorkdays lastOverrideWorkdays
  rw [lookup_workdaysFold, lookup_constFold]
  rcases List.findSome? (fun o => if o.staffId = sid then o.workdays else none)
      rules.staffOverrides.reverse with _ | ws <;>
    simp [mapGet?]

theorem lookup_buildGlobalExc (rules : CapacityRules) (d : YMD) :
    mapGet? (buildGlobalExc rules) d = lastGlobalExc rules d := by
  unfold buildGlobalExc lastGlobalExc
  rw [lookup_globalExcFold]
  rcases hfs : rules.exceptions.reverse.findSome?
      (fun e =>
        match e.staffId with
        | some _ => none
        | none => if e.date = d then some (e.hours.getD 0) else none) with _ | h <;>
    simp [hfs, mapGet?]

theorem lookup2_buildPerStaffExc (rules : CapacityRules) (d : YMD) (sid : Nat) :
    lookup2 (buildPerStaffExc rules) d sid = lastStaffExc rules sid d := by
  unfold buildPerStaffExc lastStaffExc
  rw [lookup2_perStaffFold]
  rcases hfs : rules.exceptions.reverse.findSome?
      (fun e =>
        match e.staffId with
        | some s => if s = sid ∧ e.date = d then some (e.hours.getD 0) else none
        | none => none) with _ | h <;>
    simp [hfs, lookup2, mapGet?]

/-- The inline hours computation of the availability loop implements
    exactly the four-level precedence of the spec. -/
theorem effectiveHours_eq_spec (staff : List Staff) (rules : CapacityRules)
    (sid : Nat) (d : YMD) :
    effectiveHours staff rules sid d = effectiveHoursSpec rules sid d := by
  unfold effectiveHours effectiveHoursSpec
  have hps := lookup2_buildPerStaffExc rules d sid
  unfold lookup2 at hps
  rw [hps, lookup_buildGlobalExc, staffBaseHours_eq]
  rcases lastStaffExc rules sid d with _ | h
  · rcases lastGlobalExc rules d with _ | g <;> simp [overrideHoursOrDefault]
  · simp

/-! ## Sum characterisations of the daily loops -/

theorem foldl_add_eq_sum {α : Type} (f : α → ℚ) (l : List α) (c : ℚ) :
    l.foldl (fun acc x => acc + f x) c = c + (l.map f).sum := by
  induction l generalizing c with
  | nil => simp
  | cons x l ih =>
    simp only [List.foldl_cons, ih (c + f x), List.map_cons, List.sum_cons]
    ring

theorem foldl_if_add_eq_sum {α : Type} (p : α → Prop) [DecidablePred p]
    (f : α → ℚ) (l : List α) (c : ℚ) :
    l.foldl (fun acc x => if p x then acc + f x else acc) c =
      c + (l.map (fun x => if p x then f x else 0)).sum := by
  have hbody : (fun (acc : ℚ) x => if p x then acc + f x else acc) =
      (fun acc x => acc + (if p x then f x else 0)) := by
    funext acc x
    split_ifs <;> ring
  rw [hbody, foldl_add_eq_sum]

/-- The availability loop is the sum, over the staff collection, of each
    member value `effectiveHours` gated by `worksOn`. -/
theorem availableOn_eq_sum (staff : List Staff) (rules : CapacityRules) (d : YMD) :
    availableOn staff rules d =
      (staff.map
        (fun s => if worksOn staff rules s.id d then effectiveHours staff rules s.id d else 0)).sum := by
  unfold availableOn
  rw [foldl_if_add_eq_sum (fun s => worksOn staff rules s.id d = true)
    (fun s => effectiveHours staff rules s.id d) staff 0]
  simp

/-- The needed loop is the sum, over the assignments spanning the date, of
    the override-or-default base hours of the staff member of the assignment —
    regardless of whether that staff id is in the staff collection, and with
    no exception applied. -/
theorem neededHoursOn_eq_sum (staff : List Staff) (rules : CapacityRules)
    (assignments : List Assignment) (d : YMD) :
    neededHoursOn staff rules assignments d =
      (assignments.map
        (fun a =>
          if dle a.startD d ∧ dle d a.endD then overrideHoursOrDefault rules a.staffId
          else 0)).sum := by
  unfold neededHoursOn
  rw [foldl_if_add_eq_sum (fun a => dle a.startD d ∧ dle d a.endD)
    (fun a => (mapGet? (buildStaffHours staff rules) a.staffId).getD rules.defaultHoursPerDay)
    assignments 0]
  simp only [zero_add]
  refine congrArg List.sum (List.map_congr_left ?_)
  intro a _
  rw [staffBaseHours_eq]

/-- For a member of the staff collection, `worksOn` is membership of the
    weekday of the date in the effective workday set of the spec (override
    `workdays` when provided, else `rules.workdays`). -/
theorem worksOn_eq_effectiveWorkdays (staff : List Staff) (rules : CapacityRules)
    (s : Staff) (hs : s ∈ staff) (d : YMD) :
    worksOn staff rules s.id d = decide (weekdayFromISO d ∈ effectiveWorkdays rules s.id) := by
  unfold worksOn effectiveWorkdays
  rw [lookup_buildStaffWorkdays]
  have hmem : s.id ∈ staff.map Staff.id := List.mem_map_of_mem Staff.id hs
  rcases lastOverrideWorkdays rules s.id with _ | ws
  · simp [hmem]
  · simp

/-! ## Bucketising: conservation, sorting, grouping -/

/-- Total `available` held in the points map. -/
def sumAvail (pts : List (YMD × BucketPoint)) : ℚ :=
  (pts.map (fun kv => kv.2.available)).sum

/-- Total `needed` held in the points map. -/
def sumNeed (pts : List (YMD × BucketPoint)) : ℚ :=
  (pts.map (fun kv => kv.2.needed)).sum

theorem sum_map_snd_mapSet (f : BucketPoint → ℚ) (pts : List (YMD × BucketPoint))
    (k : YMD) (v : BucketPoint) :
    ((mapSet pts k v).map (fun kv => f kv.2)).sum =
      (pts.map (fun kv => f kv.2)).sum + f v -
        (match mapGet? pts k with
         | some p => f p
         | none => 0) := by
  induction pts with
  | nil => simp [mapSet, mapGet?]
  | cons kv' rest ih =>
    obtain ⟨k', p'⟩ := kv'
    by_cases h : k' = k
    · subst h
      simp [mapSet, mapGet?]
      ring
    · simp [mapSet, mapGet?, h, ih]
      ring

theorem sumAvail_pushPoint (b : Bucket) (pts : List (YMD × BucketPoint)) (r : DayRow) :
    sumAvail (pushPoint b pts r) = sumAvail pts + r.available := by
  unfold pushPoint sumAvail
  rw [sum_map_snd_mapSet (fun p => p.available)]
  rcases hm : mapGet? pts (bucketKey b r.date) with _ | p <;> simp [hm] <;> ring

theorem sumNeed_pushPoint (b : Bucket) (pts : List (YMD × BucketPoint)) (r : DayRow) :
    sumNeed (pushPoint b pts r) = sumNeed pts + r.needed := by
  unfold pushPoint sumNeed
  rw [sum_map_snd_mapSet (fun p => p.needed)]
  rcases hm : mapGet? pts (bucketKey b r.date) with _ | p <;> simp [hm] <;> ring

theorem sumAvail_foldl_pushPoint (b : Bucket) (rows : List DayRow)
    (pts : List (YMD × BucketPoint)) :
    sumAvail (rows.foldl (pushPoint b) pts) =
      sumAvail pts + (rows.map DayRow.available).sum := by
  induction rows generalizing pts with
  | nil => simp
  | cons r rows ih =>
    simp only [List.foldl_cons, ih, sumAvail_pushPoint, List.map_cons, List.sum_cons]
    ring

theorem sumNeed_foldl_pushPoint (b : Bucket) (rows : List DayRow)
    (pts : List (YMD × BucketPoint)) :
    sumNeed (rows.foldl (pushPoint b) pts) =
      sumNeed pts + (rows.map DayRow.needed).sum := by
  induction rows generalizing pts with
  | nil => simp
  | cons r rows ih =>
    simp only [List.foldl_cons, ih, sumNeed_pushPoint, List.map_cons, List.sum_cons]
    ring

theorem perm_insertSorted {α : Type} (le : α → α → Bool) (x : α) (l : List α) :
    (insertSorted le x l).Perm (x :: l) := by
  induction l with
  | nil => exact List.Perm.refl _
  | cons y ys ih =>
    unfold insertSorted
    by_cases h : le x y
    · simp [h]
    · simp only [h, if_false, Bool.false_eq_true]
      exact (ih.cons y).trans (List.Perm.swap x y ys)

theorem perm_sortByLE {α : Type} (le : α → α → Bool) (l : List α) :
    (sortByLE le l).Perm l := by
  induction l with
  | nil => exact List.Perm.refl _
  | cons x xs ih =>
    exact (perm_insertSorted le x (sortByLE le xs)).trans (ih.cons x)

theorem pairwise_insertSorted {α : Type} (le : α → α → Bool)
    (hTotal : ∀ a b, le a b = true ∨ le b a = true)
    (hTrans : ∀ a b c, le a b = true → le b c = true → le a c = true)
    (x : α) (l : List α) (hl : l.Pairwise (fun a b => le a b = true)) :
    (insertSorted le x l).Pairwise (fun a b => le a b = true) := by
  induction l with
  | nil => simp [insertSorted]
  | cons y ys ih =>
    rcases List.pairwise_cons.mp hl with ⟨hy, hys⟩
    unfold insertSorted
    by_cases h : le x y
    · simp only [h, if_true]
      refine List.pairwise_cons.mpr ⟨?_, hl⟩
      intro z hz
      rcases List.mem_cons.mp hz with rfl | hz
      · exact h
      · exact hTrans x y z h (hy z hz)
    · simp only [h, if_false, Bool.false_eq_true]
      refine List.pairwise_cons.mpr ⟨?_, ih hys⟩
      intro z hz
      rcases List.mem_cons.mp ((perm_insertSorted le x ys).mem_iff.mp hz) with rfl | hz
      · rcases hTotal z y with hzy | hyz
        · exact absurd hzy h
        · exact hyz
      · exact hy z hz

theorem pairwise_sortByLE {α : Type} (le : α → α → Bool)
    (hTotal : ∀ a b, le a b = true ∨ le b a = true)
    (hTrans : ∀ a b c, le a b = true → le b c = true → le a c = true)
    (l : List α) :
    (sortByLE le l).Pairwise (fun a b => le a b = true) := by
  induction l with
  | nil => simp [sortByLE]
  | cons x xs ih => exact pairwise_insertSorted le hTotal hTrans x (sortByLE le xs) ih

theorem mapGet?_pushPoint_eq (b : Bucket) (pts : List (YMD × BucketPoint))
    (r : DayRow) (k : YMD) :
    mapGet? (pushPoint b pts r) k =
      if bucketKey b r.date = k then
        some
          ⟨((mapGet? pts k).getD ⟨k, 0, 0⟩).bucketStart,
           ((mapGet? pts k).getD ⟨k, 0, 0⟩).available + r.available,
           ((mapGet? pts k).getD ⟨k, 0, 0⟩).needed + r.needed⟩
      else mapGet? pts k := by
  unfold pushPoint
  by_cases h : bucketKey b r.date = k
  · subst h
    rw [mapGet?_mapSet_self]
    simp
  · rw [mapGet?_mapSet_ne _ _ _ _ h]
    simp [h]

/-- Lookup after folding the whole daily series into the points map: the
    bucket point for key `k` accumulates exactly the rows whose bucket key
    is `k`, on top of whatever the initial map held. -/
theorem mapGet?_foldl_pushPoint (b : Bucket) (rows : List DayRow)
    (pts : List (YMD × BucketPoint)) (k : YMD) :
    mapGet? (rows.foldl (pushPoint b) pts) k =
      if (mapGet? pts k).isNone ∧ (rows.filter (fun r => bucketKey b r.date == k)) = [] then
        none
      else
        some
          ⟨((mapGet? pts k).getD ⟨k, 0, 0⟩).bucketStart,
           ((mapGet? pts k).getD ⟨k, 0, 0⟩).available +
             ((rows.filter (fun r => bucketKey b r.date == k)).map DayRow.available).sum,
           ((mapGet? pts k).getD ⟨k, 0, 0⟩).needed +
             ((rows.filter (fun r => bucketKey b r.date == k)).map DayRow.needed).sum⟩ := by
  induction rows generalizing pts with
  | nil =>
    rcases hm : mapGet? pts k with _ | p <;> simp [hm]
  | cons r rows ih =>
    simp only [List.foldl_cons, ih, mapGet?_pushPoint_eq, List.filter_cons]
    by_cases hk : bucketKey b r.date = k
    · have hbeq : (bucketKey b r.date == k) = true := by simp [hk]
      simp [hk, hbeq, BucketPoint.mk.injEq]
      and_intros <;> first | rfl | ring
    · have hbeq : (bucketKey b r.date == k) = false := by simp [hk]
      simp [hk, hbeq]

theorem mem_keys_mapSet {κ β : Type} [DecidableEq κ] (m : List (κ × β)) (k : κ) (v : β)
    (x : κ) : x ∈ (mapSet m k v).map Prod.fst ↔ x ∈ m.map Prod.fst ∨ x = k := by
  induction m with
  | nil => simp [mapSet]
  | cons kv rest ih =>
    obtain ⟨k', v'⟩ := kv
    by_cases h : k' = k
    · subst h
      simp [mapSet]
      tauto
    · simp [mapSet, h, ih]
      tauto

theorem nodup_keys_mapSet {κ β : Type} [DecidableEq κ] (m : List (κ × β)) (k : κ) (v : β)
    (h : (m.map Prod.fst).Nodup) : ((mapSet m k v).map Prod.fst).Nodup := by
  induction m with
  | nil => simp [mapSet]
  | cons kv rest ih =>
    obtain ⟨k', v'⟩ := kv
    simp only [List.map_cons, List.nodup_cons] at h
    by_cases hk : k' = k
    · subst hk
      simpa [mapSet] using h
    · simp only [mapSet, hk, if_false, List.map_cons, List.nodup_cons]
      refine ⟨?_, ih h.2⟩
      intro hmem
      rcases (mem_keys_mapSet rest k v k').mp hmem with hin | rfl
      · exact h.1 hin
      · exact hk rfl

theorem mem_mapSet_sub {κ β : Type} [DecidableEq κ] (m : List (κ × β)) (k : κ) (v : β)
    (kv : κ × β) (h : kv ∈ mapSet m k v) : kv = (k, v) ∨ kv ∈ m := by
  induction m with
  | nil => simpa [mapSet] using h
  | cons kv' rest ih =>
    obtain ⟨k', v'⟩ := kv'
    by_cases hk : k' = k <;>
      simp only [mapSet, hk, if_true, if_false, List.mem_cons] at h ⊢
    · tauto
    · rcases h with h | h
      · tauto
      · rcases ih h with h' | h' <;> tauto

theorem mapGet?_mem {κ β : Type} [DecidableEq κ] (m : List (κ × β)) (k : κ) (v : β)
    (h : mapGet? m k = some v) : (k, v) ∈ m := by
  induction m with
  | nil => simp [mapGet?] at h
  | cons kv rest ih =>
    obtain ⟨k', v'⟩ := kv
    by_cases hk : k' = k <;>
      simp only [mapGet?, hk, if_true, if_false, Option.some.injEq] at h
    · subst hk
      rw [h]
      exact List.mem_cons_self _ _
    · exact List.mem_cons_of_mem _ (ih h)

theorem mapGet?_of_mem_nodup {κ β : Type} [DecidableEq κ] (m : List (κ × β))
    (hnd : (m.map Prod.fst).Nodup) (k : κ) (v : β) (h : (k, v) ∈ m) :
    mapGet? m k = some v := by
  induction m with
  | nil => simp at h
  | cons kv rest ih =>
    obtain ⟨k', v'⟩ := kv
    simp only [List.map_cons, List.nodup_cons] at hnd
    rcases List.mem_cons.mp h with heq | hin
    · have hkk : k' = k ∧ v' = v := by
        have h2 := heq
        simp only [Prod.mk.injEq] at h2
        exact ⟨h2.1.symm, h2.2.symm⟩
      obtain ⟨rfl, rfl⟩ := hkk
      simp [mapGet?]
    · by_cases hk : k' = k
      · subst hk
        exact absurd (List.mem_map_of_mem Prod.fst hin) hnd.1
      · simp only [mapGet?, hk, if_false]
        exact ih hnd.2 hin

theorem nodup_keys_pushPoint (b : Bucket) (pts : List (YMD × BucketPoint)) (r : DayRow)
    (h : (pts.map Prod.fst).Nodup) : ((pushPoint b pts r).map Prod.fst).Nodup := by
  unfold pushPoint
  exact nodup_keys_mapSet _ _ _ h

theorem nodup_keys_foldl_pushPoint (b : Bucket) (rows : List DayRow)
    (pts : List (YMD × BucketPoint)) (h : (pts.map Prod.fst).Nodup) :
    ((rows.foldl (pushPoint b) pts).map Prod.fst).Nodup := by
  induction rows generalizing pts with
  | nil => exact h
  | cons r rows ih => exact ih _ (nodup_keys_pushPoint b pts r h)

theorem pushPoint_bucketStart_inv (b : Bucket) (pts : List (YMD × BucketPoint)) (r : DayRow)
    (h : ∀ kv ∈ pts, (kv : YMD × BucketPoint).2.bucketStart = kv.1) :
    ∀ kv ∈ pushPoint b pts r, (kv : YMD × BucketPoint).2.bucketStart = kv.1 := by
  intro kv hkv
  unfold pushPoint at hkv
  rcases mem_mapSet_sub _ _ _ kv hkv with rfl | hin
  · rcases hm : mapGet? pts (bucketKey b r.date) with _ | p0
    · simp [hm]
    · simp only [hm, Option.getD_some]
      exact h _ (mapGet?_mem _ _ _ hm)
  · exact h kv hin

theorem foldl_pushPoint_bucketStart_inv (b : Bucket) (rows : List DayRow)
    (pts : List (YMD × BucketPoint))
    (h : ∀ kv ∈ pts, (kv : YMD × BucketPoint).2.bucketStart = kv.1) :
    ∀ kv ∈ rows.foldl (pushPoint b) pts, (kv : YMD × BucketPoint).2.bucketStart = kv.1 := by
  induction rows generalizing pts with
  | nil => exact h
  | cons r rows ih => exact ih _ (pushPoint_bucketStart_inv b pts r h)

/-- Every returned bucket point is exactly the sum of the day rows whose
    bucket key equals its `bucketStart`, and at least one such row exists
    (edge buckets are built only from days actually present in the series —
    no padding). -/
theorem bucketize_point_char (b : Bucket) (rows : List DayRow) (p : BucketPoint)
    (hp : p ∈ bucketize b rows) :
    rows.filter (fun r => bucketKey b r.date == p.bucketStart) ≠ [] ∧
    p.available =
      ((rows.filter (fun r => bucketKey b r.date == p.bucketStart)).map DayRow.available).sum ∧
    p.needed =
      ((rows.filter (fun r => bucketKey b r.date == p.bucketStart)).map DayRow.needed).sum := by
  unfold bucketize at hp
  have hmem : p ∈ (rows.foldl (pushPoint b) []).map Prod.snd :=
    (perm_sortByLE bucketLE _).mem_iff.mp hp
  obtain ⟨kv, hkv, hsnd⟩ := List.mem_map.mp hmem
  have hbs : kv.2.bucketStart = kv.1 :=
    foldl_pushPoint_bucketStart_inv b rows [] (by simp) kv hkv
  have hnd : ((rows.foldl (pushPoint b) []).map Prod.fst).Nodup :=
    nodup_keys_foldl_pushPoint b rows [] (by simp)
  have hget : mapGet? (rows.foldl (pushPoint b) []) kv.1 = some kv.2 := by
    refine mapGet?_of_mem_nodup _ hnd kv.1 kv.2 ?_
    rcases kv with ⟨k, v⟩
    exact hkv
  rw [mapGet?_foldl_pushPoint] at hget
  simp only [mapGet?, Option.isNone_none, true_and, Option.getD_none] at hget
  by_cases hfil : rows.filter (fun r => bucketKey b r.date == kv.1) = []
  · rw [if_pos hfil] at hget
    exact absurd hget (by simp)
  · rw [if_neg hfil] at hget
    have hkv2 : kv.2 = ⟨kv.1,
        ((rows.filter (fun r => bucketKey b r.date == kv.1)).map DayRow.available).sum,
        ((rows.filter (fun r => bucketKey b r.date == kv.1)).map DayRow.needed).sum⟩ := by
      have h2 := hget.symm
      simp only [Option.some.injEq] at h2
      rw [h2]
      simp
    rw [← hsnd, hbs, hkv2]
    exact ⟨hfil, rfl, rfl⟩

theorem bucketLE_total (p q : BucketPoint) : bucketLE p q = true ∨ bucketLE q p = true := by
  unfold bucketLE
  rcases dle_total p.bucketStart q.bucketStart with h | h
  · exact Or.inl (by simpa using h)
  · exact Or.inr (by simpa using h)

theorem bucketLE_trans (p q s : BucketPoint) (h1 : bucketLE p q = true)
    (h2 : bucketLE q s = true) : bucketLE p s = true := by
  unfold bucketLE at *
  simp only [decide_eq_true_eq] at *
  exact dle_trans h1 h2

/-- The returned points are strictly ascending in `bucketStart`. -/
theorem bucketize_sorted (b : Bucket) (rows : List DayRow) :
    (bucketize b rows).Pairwise (fun p q => dlt p.bucketStart q.bucketStart) := by
  have hle : (bucketize b rows).Pairwise (fun p q => bucketLE p q = true) := by
    unfold bucketize
    exact pairwise_sortByLE bucketLE bucketLE_total bucketLE_trans _
  have hinv := foldl_pushPoint_bucketStart_inv b rows [] (by simp)
  have hnd : ((rows.foldl (pushPoint b) []).map Prod.fst).Nodup :=
    nodup_keys_foldl_pushPoint b rows [] (by simp)
  have hmapeq : ((rows.foldl (pushPoint b) []).map Prod.snd).map (fun p => p.bucketStart) =
      (rows.foldl (pushPoint b) []).map Prod.fst := by
    rw [List.map_map]
    exact List.map_congr_left (fun kv hkv => hinv kv hkv)
  have hndvals : (((rows.foldl (pushPoint b) []).map Prod.snd).map
      (fun p => p.bucketStart)).Nodup := by
    rw [hmapeq]; exact hnd
  have hndsorted : ((bucketize b rows).map (fun p => p.bucketStart)).Nodup := by
    have hperm : (bucketize b rows).Perm ((rows.foldl (pushPoint b) []).map Prod.snd) := by
      unfold bucketize
      exact perm_sortByLE bucketLE _
    exact (hperm.map (fun p => p.bucketStart)).nodup_iff.mpr hndvals
  have hne : (bucketize b rows).Pairwise (fun p q => p.bucketStart ≠ q.bucketStart) :=
    (List.pairwise_map.mp hndsorted)
  refine (hle.and hne).imp ?_
  intro p q hpq
  rcases hpq with ⟨h1, h2⟩
  have hdle : dle p.bucketStart q.bucketStart := by
    unfold bucketLE at h1
    simpa using h1
  exact dlt_of_dle_of_ne hdle h2

/-! ## Daily series and conservation -/

/-- Bucketising neither loses nor duplicates `available` hours. -/
theorem bucketize_sum_avail (b : Bucket) (days : List DayRow) :
    ((bucketize b days).map (fun p => p.available)).sum = (days.map DayRow.available).sum := by
  unfold bucketize
  rw [((perm_sortByLE bucketLE ((days.foldl (pushPoint b) []).map Prod.snd)).map
    (fun p => p.available)).sum_eq]
  rw [List.map_map]
  have h := sumAvail_foldl_pushPoint b days []
  unfold sumAvail at h
  simpa [Function.comp] using h

/-- Bucketising neither loses nor duplicates `needed` hours. -/
theorem bucketize_sum_need (b : Bucket) (days : List DayRow) :
    ((bucketize b days).map (fun p => p.needed)).sum = (days.map DayRow.needed).sum := by
  unfold bucketize
  rw [((perm_sortByLE bucketLE ((days.foldl (pushPoint b) []).map Prod.snd)).map
    (fun p => p.needed)).sum_eq]
  rw [List.map_map]
  have h := sumNeed_foldl_pushPoint b days []
  unfold sumNeed at h
  simpa [Function.comp] using h

/-- Every date in the daily series is a real calendar date when the range
    start is. -/
theorem dailySeriesAux_valid (staff : List Staff) (assignments : List Assignment)
    (rules : CapacityRules) (dto : YMD) :
    ∀ fuel d, ValidDate d →
      ∀ r ∈ buildDailySeriesAux staff assignments rules dto fuel d, ValidDate r.date := by
  intro fuel
  induction fuel with
  | zero =>
    intro d _ r hr
    simp [buildDailySeriesAux] at hr
  | succ fuel ih =>
    intro d hd r hr
    unfold buildDailySeriesAux at hr
    by_cases hle : dle d dto
    · rw [if_pos hle] at hr
      rcases List.mem_cons.mp hr with rfl | hr
      · exact hd
      · exact ih (nextDay d) (validDate_nextDay d hd) r hr
    · rw [if_neg hle] at hr
      simp at hr

theorem buildDailySeries_valid (staff : List Staff) (assignments : List Assignment)
    (rules : CapacityRules) (dfrom dto : YMD) (h : ValidDate dfrom) :
    ∀ r ∈ buildDailySeries staff assignments rules dfrom dto, ValidDate r.date :=
  dailySeriesAux_valid staff assignments rules dto _ dfrom h

/-- With `from = to` the daily loop runs exactly once. -/
theorem buildDailySeries_self (staff : List Staff) (assignments : List Assignment)
    (rules : CapacityRules) (d : YMD) :
    buildDailySeries staff assignments rules d d =
      [⟨d, availableOn staff rules d, neededHoursOn staff rules assignments d⟩] := by
  unfold buildDailySeries
  rw [show rataDie d + 1 - rataDie d = 0 + 1 by omega]
  unfold buildDailySeriesAux
  rw [if_pos (dle_refl d)]
  rfl

/-- Bucketising a single row at `day` granularity yields that row as its own
    bucket. -/
theorem bucketize_day_single (row : DayRow) :
    bucketize Bucket.day [row] = [⟨row.date, row.available, row.needed⟩] := by
  unfold bucketize
  simp [pushPoint, bucketKey, mapGet?, mapSet, sortByLE, insertSorted]

/-! ## Claims -/

theorem dlt_irrefl (a : YMD) : ¬ dlt a a := by unfold dlt; omega

/-- C1 (counterexample): the claim as stated is false.  With staff
    `[{id 1}]`, default rules plus a global exception `{date 2024-01-02,
    hours 0}`, and one assignment `2024-01-01..2024-01-05`, the computed
    `needed` for 2024-01-02 is 8, but the sum the claim asks for with `effectiveHours`
    over spanning assignments is 0: exceptions do not change `needed` in the
    code. -/
theorem c1_needed_ignores_exceptions_counterexample :
    neededHoursOn [⟨1, "A"⟩]
        ⟨8, [1, 2, 3, 4, 5], [], [⟨⟨2024, 1, 2⟩, some 0, none, none⟩]⟩
        [⟨1, 1, 1, ⟨2024, 1, 1⟩, ⟨2024, 1, 5⟩, none⟩] ⟨2024, 1, 2⟩ ≠
      neededHoursClaimC1 [⟨1, "A"⟩]
        ⟨8, [1, 2, 3, 4, 5], [], [⟨⟨2024, 1, 2⟩, some 0, none, none⟩]⟩
        [⟨1, 1, 1, ⟨2024, 1, 1⟩, ⟨2024, 1, 5⟩, none⟩] ⟨2024, 1, 2⟩ := by
  norm_num [neededHoursOn, neededHoursClaimC1, effectiveHours, buildStaffHours,
    buildGlobalExc, buildPerStaffExc, mapSet, mapGet?, dle, List.filter, List.foldl]

/-- C1 (amended): for every rules document, staff list, assignment list and
    date, the needed-hours total is the sum, over every assignment whose
    inclusive span contains the date, of the override-or-default base
    daily hours of the assigned staff member — independent of `worksOn` and of
    any exception (a 0-hours holiday or PTO exception lowers `available`
    but leaves `needed` unchanged). -/
theorem c1_needed_is_base_hours_sum (staff : List Staff) (rules : CapacityRules)
    (assignments : List Assignment) (d : YMD) :
    neededHoursOn staff rules assignments d =
      (assignments.map
        (fun a =>
          if dle a.startD d ∧ dle d a.endD then overrideHoursOrDefault rules a.staffId
          else 0)).sum :=
  neededHoursOn_eq_sum staff rules assignments d

/-- C2: `effectiveHours` is decided by first-match-wins precedence — a
    staff-scoped exception for the exact date and staff id (its hours, 0 if
    omitted), else a global exception for the date (its hours, 0 if
    omitted), else the staff override value `hoursPerDay`, else
    `rules.defaultHoursPerDay`; and whenever a staff-scoped exception is
    present, the result equals its hours (even 0) regardless of any
    override or default. -/
theorem c2_effectiveHours_precedence (staff : List Staff) (rules : CapacityRules)
    (sid : Nat) (d : YMD) :
    effectiveHours staff rules sid d = effectiveHoursSpec rules sid d ∧
    ∀ h, lastStaffExc rules sid d = some h → effectiveHours staff rules sid d = h := by
  refine ⟨effectiveHours_eq_spec staff rules sid d, ?_⟩
  intro h hh
  rw [effectiveHours_eq_spec]
  unfold effectiveHoursSpec
  rw [hh]

/-- C2 witness: with an override of 4h and a staff-scoped 0-hours exception
    for staff 1 on 2024-01-02, the computed value agrees with the spec
    precedence and equals the 0 of the exception. -/
theorem c2_effectiveHours_precedence_witness :
    effectiveHours [⟨1, "A"⟩]
        ⟨8, [1, 2, 3, 4, 5], [⟨1, 4, none⟩], [⟨⟨2024, 1, 2⟩, some 0, some 1, none⟩]⟩
        1 ⟨2024, 1, 2⟩ =
      effectiveHoursSpec
        ⟨8, [1, 2, 3, 4, 5], [⟨1, 4, none⟩], [⟨⟨2024, 1, 2⟩, some 0, some 1, none⟩]⟩
        1 ⟨2024, 1, 2⟩ ∧
    effectiveHours [⟨1, "A"⟩]
        ⟨8, [1, 2, 3, 4, 5], [⟨1, 4, none⟩], [⟨⟨2024, 1, 2⟩, some 0, some 1, none⟩]⟩
        1 ⟨2024, 1, 2⟩ = 0 := by
  have h := c2_effectiveHours_precedence [⟨1, "A"⟩]
    ⟨8, [1, 2, 3, 4, 5], [⟨1, 4, none⟩], [⟨⟨2024, 1, 2⟩, some 0, some 1, none⟩]⟩
    1 ⟨2024, 1, 2⟩
  exact ⟨h.1, h.2 0 rfl⟩

/-- C4: for every staff list, assignment list, rules document, range with
    `from ≤ to` and bucket granularity, the sum of `available` (and
    separately `needed`) over the returned buckets equals the corresponding
    sum over the per-day series — bucketing neither loses nor duplicates
    hours. -/
theorem c4_bucket_sum_conservation (staff : List Staff) (assignments : List Assignment)
    (rules : CapacityRules) (dfrom dto : YMD) (b : Bucket) (hrange : dle dfrom dto) :
    ((bucketize b (buildDailySeries staff assignments rules dfrom dto)).map
        (fun p => p.available)).sum =
      ((buildDailySeries staff assignments rules dfrom dto).map DayRow.available).sum ∧
    ((bucketize b (buildDailySeries staff assignments rules dfrom dto)).map
        (fun p => p.needed)).sum =
      ((buildDailySeries staff assignments rules dfrom dto).map DayRow.needed).sum :=
  ⟨bucketize_sum_avail b _, bucketize_sum_need b _⟩

/-- C4 witness at a concrete two-day range. -/
theorem c4_bucket_sum_conservation_witness :
    dle ⟨2024, 1, 1⟩ ⟨2024, 1, 2⟩ ∧
    (((bucketize Bucket.week
          (buildDailySeries [⟨1, "A"⟩] [] defaultRules ⟨2024, 1, 1⟩ ⟨2024, 1, 2⟩)).map
        (fun p => p.available)).sum =
      ((buildDailySeries [⟨1, "A"⟩] [] defaultRules ⟨2024, 1, 1⟩ ⟨2024, 1, 2⟩).map
        DayRow.available).sum ∧
    ((bucketize Bucket.week
          (buildDailySeries [⟨1, "A"⟩] [] defaultRules ⟨2024, 1, 1⟩ ⟨2024, 1, 2⟩)).map
        (fun p => p.needed)).sum =
      ((buildDailySeries [⟨1, "A"⟩] [] defaultRules ⟨2024, 1, 1⟩ ⟨2024, 1, 2⟩).map
        DayRow.needed).sum) :=
  ⟨by decide, c4_bucket_sum_conservation [⟨1, "A"⟩] [] defaultRules
    ⟨2024, 1, 1⟩ ⟨2024, 1, 2⟩ Bucket.week (by decide)⟩

/-- C5: a staff member contributes to `available` exactly when the date's
    weekday is in their effective workday set (the override `workdays`
    when provided, else `rules.workdays`): the availability total is the sum
    of each member value `effectiveHours` gated by `worksOn`, and for every
    member of the staff collection `worksOn` is precisely weekday membership
    in the effective workday set — so on a non-workday the member
    contributes 0 even if an exception assigns nonzero hours. -/
theorem c5_available_workday_gating (staff : List Staff) (rules : CapacityRules) (d : YMD) :
    availableOn staff rules d =
      (staff.map
        (fun s => if worksOn staff rules s.id d then effectiveHours staff rules s.id d else 0)).sum ∧
    ∀ s ∈ staff,
      worksOn staff rules s.id d = decide (weekdayFromISO d ∈ effectiveWorkdays rules s.id) :=
  ⟨availableOn_eq_sum staff rules d,
   fun s hs => worksOn_eq_effectiveWorkdays staff rules s hs d⟩

/-- C5 witness: Saturday 2024-01-06 with a nonzero staff exception — the
    member is outside the workday set and the availability total is 0. -/
theorem c5_available_workday_gating_witness :
    availableOn [⟨1, "A"⟩]
        ⟨8, [1, 2, 3, 4, 5], [], [⟨⟨2024, 1, 6⟩, some 5, some 1, none⟩]⟩ ⟨2024, 1, 6⟩ =
      ([⟨1, "A"⟩].map
        (fun s : Staff =>
          if worksOn [⟨1, "A"⟩]
              ⟨8, [1, 2, 3, 4, 5], [], [⟨⟨2024, 1, 6⟩, some 5, some 1, none⟩]⟩ s.id ⟨2024, 1, 6⟩ then
            effectiveHours [⟨1, "A"⟩]
              ⟨8, [1, 2, 3, 4, 5], [], [⟨⟨2024, 1, 6⟩, some 5, some 1, none⟩]⟩ s.id ⟨2024, 1, 6⟩
          else 0)).sum ∧
    worksOn [⟨1, "A"⟩]
        ⟨8, [1, 2, 3, 4, 5], [], [⟨⟨2024, 1, 6⟩, some 5, some 1, none⟩]⟩ 1 ⟨2024, 1, 6⟩ =
      decide (weekdayFromISO ⟨2024, 1, 6⟩ ∈
        effectiveWorkdays ⟨8, [1, 2, 3, 4, 5], [], [⟨⟨2024, 1, 6⟩, some 5, some 1, none⟩]⟩ 1) := by
  have h := c5_available_workday_gating [⟨1, "A"⟩]
    ⟨8, [1, 2, 3, 4, 5], [], [⟨⟨2024, 1, 6⟩, some 5, some 1, none⟩]⟩ ⟨2024, 1, 6⟩
  exact ⟨h.1, h.2 ⟨1, "A"⟩ (List.mem_cons_self _ _)⟩

/-- C10: an assignment whose `staffId` is not in the staff collection still
    contributes to `needed` on each date of its span — at the override's
    `hoursPerDay` if an override for that id exists, else
    `rules.defaultHoursPerDay` — while availability is a sum over the staff
    collection only, so that id contributes nothing to `available`. -/
theorem c10_unknown_staffId (staff : List Staff) (rules : CapacityRules)
    (a : Assignment) (rest : List Assignment) (d : YMD)
    (hsid : a.staffId ∉ staff.map Staff.id) :
    (dle a.startD d ∧ dle d a.endD →
      neededHoursOn staff rules (a :: rest) d =
        overrideHoursOrDefault rules a.staffId + neededHoursOn staff rules rest d) ∧
    availableOn staff rules d =
      availableOn (staff.filter (fun s => s.id ≠ a.staffId)) rules d := by
  constructor
  · intro hspan
    rw [neededHoursOn_eq_sum, neededHoursOn_eq_sum]
    simp [hspan]
  · have hfil : staff.filter (fun s => s.id ≠ a.staffId) = staff := by
      refine List.filter_eq_self.mpr ?_
      intro s hs
      have hne : ¬ s.id = a.staffId := fun heq => hsid (heq ▸ List.mem_map_of_mem Staff.id hs)
      simp [hne]
    rw [hfil]

/-- C10 witness: assignment for unknown staff id 2 (with an override of 5h
    for id 2) spanning 2024-01-02. -/
theorem c10_unknown_staffId_witness :
    (2 ∉ [(⟨1, "A"⟩ : Staff)].map Staff.id) ∧
    (neededHoursOn [⟨1, "A"⟩] ⟨8, [1, 2, 3, 4, 5], [⟨2, 5, none⟩], []⟩
        [⟨1, 2, 1, ⟨2024, 1, 1⟩, ⟨2024, 1, 5⟩, none⟩] ⟨2024, 1, 2⟩ =
      overrideHoursOrDefault ⟨8, [1, 2, 3, 4, 5], [⟨2, 5, none⟩], []⟩ 2 +
        neededHoursOn [⟨1, "A"⟩] ⟨8, [1, 2, 3, 4, 5], [⟨2, 5, none⟩], []⟩ [] ⟨2024, 1, 2⟩) ∧
    availableOn [⟨1, "A"⟩] ⟨8, [1, 2, 3, 4, 5], [⟨2, 5, none⟩], []⟩ ⟨2024, 1, 2⟩ =
      availableOn ([⟨1, "A"⟩].filter (fun s => s.id ≠ 2))
        ⟨8, [1, 2, 3, 4, 5], [⟨2, 5, none⟩], []⟩ ⟨2024, 1, 2⟩ := by
  have h := c10_unknown_staffId [⟨1, "A"⟩] ⟨8, [1, 2, 3, 4, 5], [⟨2, 5, none⟩], []⟩
    ⟨1, 2, 1, ⟨2024, 1, 1⟩, ⟨2024, 1, 5⟩, none⟩ [] ⟨2024, 1, 2⟩ (by decide)
  exact ⟨by decide, h.1 ⟨by decide, by decide⟩, h.2⟩

theorem forecastHandler_eq_ok (staff : List Staff) (assignments : List Assignment)
    (raw : RawRules) (f t : YMD) (bq : Option String) (b : Bucket) (rules : CapacityRules)
    (hb : parseBucket bq = some b) (hnlt : ¬ dlt t f) (hr : validateRules raw = some rules) :
    forecastHandler staff assignments raw f t bq =
      Except.ok ⟨b, bucketize b (buildDailySeries staff assignments rules f t)⟩ := by
  unfold forecastHandler
  rw [hb]
  dsimp only
  rw [if_neg hnlt, hr]

theorem forecastHandler_eq_invalidRange (staff : List Staff) (assignments : List Assignment)
    (raw : RawRules) (f t : YMD) (bq : Option String) (b : Bucket)
    (hb : parseBucket bq = some b) (hlt : dlt t f) :
    forecastHandler staff assignments raw f t bq = Except.error ForecastError.invalidRange := by
  unfold forecastHandler
  rw [hb]
  dsimp only
  rw [if_pos hlt]

/-- C7: with a recognised bucket value, `from > to` always fails with the
    range validation (a 400), and `from = to` with `bucket="day"` succeeds
    with exactly one daily row / one bucket point whose `bucketStart` is
    `from`. -/
theorem c7_range_validity (staff : List Staff) (assignments : List Assignment)
    (raw : RawRules) (rules : CapacityRules) (f t : YMD) (bq : Option String) (b : Bucket)
    (hb : parseBucket bq = some b) (hr : validateRules raw = some rules) :
    (dlt t f →
      forecastHandler staff assignments raw f t bq = Except.error ForecastError.invalidRange ∧
      respondsWith400 ForecastError.invalidRange = true) ∧
    forecastHandler staff assignments raw f f (some "day") =
      Except.ok ⟨Bucket.day,
        [⟨f, availableOn staff rules f, neededHoursOn staff rules assignments f⟩]⟩ ∧
    buildDailySeries staff assignments rules f f =
      [⟨f, availableOn staff rules f, neededHoursOn staff rules assignments f⟩] := by
  have hsingle := buildDailySeries_self staff assignments rules f
  refine ⟨?_, ?_, hsingle⟩
  · intro hlt
    exact ⟨forecastHandler_eq_invalidRange staff assignments raw f t bq b hb hlt, rfl⟩
  · rw [forecastHandler_eq_ok staff assignments raw f f (some "day") Bucket.day rules rfl
      (dlt_irrefl f) hr]
    rw [hsingle, bucketize_day_single]

/-- C7 witness: `2024-01-02 > 2024-01-01` is rejected; a one-day range on
    `2024-01-01` yields the single bucket. -/
theorem c7_range_validity_witness :
    parseBucket none = some Bucket.week ∧
    validateRules ⟨none, none, none, none⟩ = some defaultRules ∧
    dlt ⟨2024, 1, 1⟩ ⟨2024, 1, 2⟩ ∧
    (forecastHandler [] [] ⟨none, none, none, none⟩ ⟨2024, 1, 2⟩ ⟨2024, 1, 1⟩ none =
        Except.error ForecastError.invalidRange ∧
      respondsWith400 ForecastError.invalidRange = true) ∧
    forecastHandler [] [] ⟨none, none, none, none⟩ ⟨2024, 1, 2⟩ ⟨2024, 1, 2⟩ (some "day") =
      Except.ok ⟨Bucket.day,
        [⟨⟨2024, 1, 2⟩, availableOn [] defaultRules ⟨2024, 1, 2⟩,
          neededHoursOn [] defaultRules [] ⟨2024, 1, 2⟩⟩]⟩ := by
  have h := c7_range_validity [] [] ⟨none, none, none, none⟩ defaultRules
    ⟨2024, 1, 2⟩ ⟨2024, 1, 1⟩ none Bucket.week rfl rfl
  exact ⟨rfl, rfl, by decide, h.1 (by decide), h.2.1⟩

/-- C8: every bucket value other than day/week/month fails the query
    validation (a 400), and an omitted bucket behaves exactly like
    `bucket="week"`. -/
theorem c8_bucket_default_and_rejection (staff : List Staff)
    (assignments : List Assignment) (raw : RawRules) (f t : YMD) (s : String) :
    ((s ≠ "day" ∧ s ≠ "week" ∧ s ≠ "month") →
      forecastHandler staff assignments raw f t (some s) =
        Except.error ForecastError.invalidBucket ∧
      respondsWith400 ForecastError.invalidBucket = true) ∧
    forecastHandler staff assignments raw f t none =
      forecastHandler staff assignments raw f t (some "week") := by
  constructor
  · rintro ⟨h1, h2, h3⟩
    have hpb : parseBucket (some s) = none := by
      unfold parseBucket
      dsimp only
      rw [if_neg h1, if_neg h2, if_neg h3]
    constructor
    · unfold forecastHandler
      rw [hpb]
    · rfl
  · rfl

/-- C8 witness: `bucket="year"` is rejected, and the default query equals
    `bucket="week"`. -/
theorem c8_bucket_default_and_rejection_witness :
    ("year" ≠ "day" ∧ "year" ≠ "week" ∧ "year" ≠ "month") ∧
    (forecastHandler [] [] ⟨none, none, none, none⟩ ⟨2024, 1, 1⟩ ⟨2024, 1, 2⟩ (some "year") =
        Except.error ForecastError.invalidBucket ∧
      respondsWith400 ForecastError.invalidBucket = true) ∧
    forecastHandler [] [] ⟨none, none, none, none⟩ ⟨2024, 1, 1⟩ ⟨2024, 1, 2⟩ none =
      forecastHandler [] [] ⟨none, none, none, none⟩ ⟨2024, 1, 1⟩ ⟨2024, 1, 2⟩ (some "week") := by
  have h := c8_bucket_default_and_rejection [] [] ⟨none, none, none, none⟩
    ⟨2024, 1, 1⟩ ⟨2024, 1, 2⟩ "year"
  exact ⟨by decide, h.1 (by decide), h.2⟩

/-- C9: a stored rules document that fails `capacityRulesSchema` validation
    (here `defaultHoursPerDay = -1`) makes the forecast handler fail through
    the throwing `parse` call, which is *not* surfaced as a 400 validation
    response (the exception escapes the async Express 4 handler) — the code
    deviates from the claimed behaviour. -/
theorem c9_invalid_rules_throws_not_400 :
    validateRules ⟨some (-1), none, none, none⟩ = none ∧
    forecastHandler [] [] ⟨some (-1), none, none, none⟩ ⟨2024, 1, 1⟩ ⟨2024, 1, 2⟩ none =
      Except.error ForecastError.rulesParseFailed ∧
    respondsWith400 ForecastError.rulesParseFailed = false :=
  ⟨rfl, rfl, rfl⟩

/-- C3 (counterexample): the end-to-end example of the claim is false — the
    inclusive span of the assignment ends 2024-01-05, so Jan 6–7 carry no demand:
    the handler does not return `needed = 8` for them. -/
theorem c3_end_to_end_counterexample :
    forecastHandler [⟨1, "A"⟩] [⟨1, 1, 1, ⟨2024, 1, 1⟩, ⟨2024, 1, 5⟩, none⟩]
        ⟨none, none, none, none⟩ ⟨2024, 1, 1⟩ ⟨2024, 1, 7⟩ (some "day") ≠
      Except.ok ⟨Bucket.day,
        [⟨⟨2024, 1, 1⟩, 8, 8⟩, ⟨⟨2024, 1, 2⟩, 8, 8⟩, ⟨⟨2024, 1, 3⟩, 8, 8⟩,
         ⟨⟨2024, 1, 4⟩, 8, 8⟩, ⟨⟨2024, 1, 5⟩, 8, 8⟩, ⟨⟨2024, 1, 6⟩, 0, 8⟩,
         ⟨⟨2024, 1, 7⟩, 0, 8⟩]⟩ := by
  rw [forecastHandler_eq_ok [⟨1, "A"⟩] [⟨1, 1, 1, ⟨2024, 1, 1⟩, ⟨2024, 1, 5⟩, none⟩]
    ⟨none, none, none, none⟩ ⟨2024, 1, 1⟩ ⟨2024, 1, 7⟩ (some "day") Bucket.day defaultRules
    rfl (by decide) rfl]
  norm_num [buildDailySeries, buildDailySeriesAux, availableOn, neededHoursOn, worksOn,
    effectiveHours, buildStaffHours, buildStaffWorkdays, buildGlobalExc, buildPerStaffExc,
    mapGet?, mapSet, dle, dlt, weekdayFromISO, rataDie, nextDay, daysInMonth, isLeap,
    bucketize, pushPoint, bucketKey, sortByLE, insertSorted, bucketLE, defaultRules]

/-- C3 (amended): with staff `[{id 1, name "A"}]`, the default rules and the
    single assignment `2024-01-01..2024-01-05`, the day-bucketed forecast for
    `2024-01-01..2024-01-07` returns seven points: Jan 1–5 with
    `available 8, needed 8`, and Jan 6–7 (Sat/Sun, outside the
    span of the assignment) with `available 0, needed 0`. -/
theorem c3_end_to_end :
    forecastHandler [⟨1, "A"⟩] [⟨1, 1, 1, ⟨2024, 1, 1⟩, ⟨2024, 1, 5⟩, none⟩]
        ⟨none, none, none, none⟩ ⟨2024, 1, 1⟩ ⟨2024, 1, 7⟩ (some "day") =
      Except.ok ⟨Bucket.day,
        [⟨⟨2024, 1, 1⟩, 8, 8⟩, ⟨⟨2024, 1, 2⟩, 8, 8⟩, ⟨⟨2024, 1, 3⟩, 8, 8⟩,
         ⟨⟨2024, 1, 4⟩, 8, 8⟩, ⟨⟨2024, 1, 5⟩, 8, 8⟩, ⟨⟨2024, 1, 6⟩, 0, 0⟩,
         ⟨⟨2024, 1, 7⟩, 0, 0⟩]⟩ := by
  rw [forecastHandler_eq_ok [⟨1, "A"⟩] [⟨1, 1, 1, ⟨2024, 1, 1⟩, ⟨2024, 1, 5⟩, none⟩]
    ⟨none, none, none, none⟩ ⟨2024, 1, 1⟩ ⟨2024, 1, 7⟩ (some "day") Bucket.day defaultRules
    rfl (by decide) rfl]
  norm_num [buildDailySeries, buildDailySeriesAux, availableOn, neededHoursOn, worksOn,
    effectiveHours, buildStaffHours, buildStaffWorkdays, buildGlobalExc, buildPerStaffExc,
    mapGet?, mapSet, dle, dlt, weekdayFromISO, rataDie, nextDay, daysInMonth, isLeap,
    bucketize, pushPoint, bucketKey, sortByLE, insertSorted, bucketLE, defaultRules]

/-- The bucket-structure property of a forecast range: the returned points
    are strictly ascending by `bucketStart`; each point sums exactly the
    days of the series whose bucket key is its `bucketStart` (and at least
    one such day exists — edge buckets are not padded beyond the range); and
    the bucket key of each day is the day itself for `day`, the most recent
    Monday on or before the day for `week` (a Monday, at or before the day,
    less than 7 days away), and for `month` day 1 of the month of the day. -/
def BucketStructure (staff : List Staff) (assignments : List Assignment)
    (rules : CapacityRules) (dfrom dto : YMD) (b : Bucket) : Prop :=
  (bucketize b (buildDailySeries staff assignments rules dfrom dto)).Pairwise
      (fun p q => dlt p.bucketStart q.bucketStart) ∧
  (∀ p ∈ bucketize b (buildDailySeries staff assignments rules dfrom dto),
    (buildDailySeries staff assignments rules dfrom dto).filter
        (fun r => bucketKey b r.date == p.bucketStart) ≠ [] ∧
    p.available =
      (((buildDailySeries staff assignments rules dfrom dto).filter
          (fun r => bucketKey b r.date == p.bucketStart)).map DayRow.available).sum ∧
    p.needed =
      (((buildDailySeries staff assignments rules dfrom dto).filter
          (fun r => bucketKey b r.date == p.bucketStart)).map DayRow.needed).sum) ∧
  (∀ r ∈ buildDailySeries staff assignments rules dfrom dto,
    bucketKey Bucket.day r.date = r.date ∧
    (weekdayFromISO (bucketKey Bucket.week r.date) = 1 ∧
      dle (bucketKey Bucket.week r.date) r.date ∧
      rataDie r.date < rataDie (bucketKey Bucket.week r.date) + 7) ∧
    bucketKey Bucket.month r.date = ⟨r.date.y, r.date.m, 1⟩)

/-- C6: for every forecast range starting at a real calendar date and every
    bucket choice, the returned points are sorted ascending by
    `bucketStart`; the `bucketStart` of a day is the day itself (`day`), the
    most recent Monday on or before the day (`week`), or day 1 of the month
    of the day (`month`); and each bucket sums exactly the days of the series
    with that key — edge buckets include only days inside `[from, to]`. -/
theorem c6_bucket_boundaries (staff : List Staff) (assignments : List Assignment)
    (rules : CapacityRules) (dfrom dto : YMD) (b : Bucket) (hfrom : ValidDate dfrom) :
    BucketStructure staff assignments rules dfrom dto b := by
  refine ⟨bucketize_sorted b _, fun p hp => bucketize_point_char b _ p hp, ?_⟩
  intro r hr
  have hvalid : ValidDate r.date :=
    buildDailySeries_valid staff assignments rules dfrom dto hfrom r hr
  obtain ⟨hmon, hle, hgap⟩ := startOfISOWeek_spec r.date hvalid
  exact ⟨rfl, ⟨hmon, hle, hgap⟩, rfl⟩

/-- C6 witness at a concrete one-day range. -/
theorem c6_bucket_boundaries_witness :
    ValidDate ⟨2024, 3, 1⟩ ∧
    BucketStructure [⟨1, "A"⟩] [] defaultRules ⟨2024, 3, 1⟩ ⟨2024, 3, 1⟩ Bucket.week :=
  ⟨by decide, c6_bucket_boundaries [⟨1, "A"⟩] [] defaultRules ⟨2024, 3, 1⟩ ⟨2024, 3, 1⟩
    Bucket.week (by decide)⟩
